import Mathlib

/-!
# Verification of the stringly string-protection core

A shallow embedding of the functions in `src/util.rs` of the stringly crate
(the nesting-aware splitter, the balance checker, the protect/unprotect
balancing algorithm, the tag splitter and the prettify/deprettify transform),
together with proofs and refutations of the specified properties.

Strings are modelled as lists of Unicode scalar values (`List Char`), which
matches `str::chars()`; where the Rust code manipulates byte indices in a way
that matters (the `SafesplitIter` cursor arithmetic) a dedicated byte-level
model is given as well.
-/

namespace Stringly

/-- Strings, modelled as lists of Unicode scalar values. -/
abbrev Str := List Char

/-! ## Nesting levels (specification-side helpers) -/

/-- Contribution of one character to the brace nesting level. -/
def chLv (c : Char) : Int :=
  if c = '{' then 1 else if c = '}' then -1 else 0

/-- Net change of the nesting level over a whole string. -/
def levelOf : Str → Int
  | [] => 0
  | c :: rest => chLv c + levelOf rest

/-- Minimum nesting level over all scan points of a string (the start point,
the point after each character, and the end point), starting from level
`lv`. -/
def minPts : Str → Int → Int
  | [], lv => lv
  | c :: rest, lv => min lv (minPts rest (lv + chLv c))

/-- The number of opening braces that must conceptually be prepended to keep
the level non-negative: the maximum excess of closing over opening braces over
any prefix.  This is the value the scan loop of `protect` computes in `l`. -/
def excessL (s : Str) : Int := max 0 (-(minPts s 0))

/-- The number of closing braces needed at the end to return to level zero:
final net level plus `excessL`.  This is the value `r` in `protect`. -/
def netR (s : Str) : Int := levelOf s + excessL s

/-! ## `safesplit` (`SafesplitIter::next`, character-level model) -/

/-- One pass of the `SafesplitIter` loop: splits at every occurrence of `sep`
whose running level (reset to zero after each produced slice, exactly as the
iterator does) is zero.  `acc` holds the reversed current slice. -/
def safesplitGo (sep : Char) : Str → Int → Str → List Str
  | [], _, acc => [acc.reverse]
  | c :: rest, level, acc =>
    if c = sep ∧ level = 0 then acc.reverse :: safesplitGo sep rest 0 []
    else if c = '{' then safesplitGo sep rest (level + 1) (c :: acc)
    else if c = '}' then safesplitGo sep rest (level - 1) (c :: acc)
    else safesplitGo sep rest level (c :: acc)

/-- `util::safesplit`: an empty string yields no items (the iterator starts
exhausted), otherwise the scan produces the slices between level-0
separators. -/
def safesplit (s : Str) (sep : Char) : List Str :=
  if s = [] then [] else safesplitGo sep s 0 []

/-- `true` iff the string contains an occurrence of `sep` at running nesting
level zero, with the same branch order as the `SafesplitIter` scan (the
separator test precedes the brace accounting). -/
def hasSep0 (sep : Char) : Str → Int → Bool
  | [], _ => false
  | c :: rest, lv =>
    if c = sep ∧ lv = 0 then true
    else if c = '{' then hasSep0 sep rest (lv + 1)
    else if c = '}' then hasSep0 sep rest (lv - 1)
    else hasSep0 sep rest lv

/-! ## `safesplit` at the byte level (for the cursor arithmetic of
`SafesplitIter::next`) -/

/-- Length in bytes of the UTF-8 encoding of a scalar value. -/
def utf8Len (c : Char) : Nat :=
  if c.toNat < 0x80 then 1
  else if c.toNat < 0x800 then 2
  else if c.toNat < 0x10000 then 3
  else 4

/-- Total UTF-8 byte length of a string. -/
def byteLen (s : Str) : Nat := (s.map utf8Len).sum

/-- Models the slice `&s[i..]` for a byte index `i`: `none` when `i` is out of
bounds or not on a character boundary, in which case the Rust slice operation
panics. -/
def dropBytes : Str → Nat → Option Str
  | s, 0 => some s
  | [], _ + 1 => none
  | c :: rest, k + 1 =>
    if utf8Len c ≤ k + 1 then dropBytes rest (k + 1 - utf8Len c) else none

/-- The `char_indices` scan of one `next()` call: finds the first occurrence
of `sep` at level 0, returning the characters before it and its byte offset
relative to the scan start. -/
def scanSep (sep : Char) : Str → Int → Option (Str × Nat)
  | [], _ => none
  | c :: rest, level =>
    if c = sep ∧ level = 0 then some ([], 0)
    else
      let lv := if c = '{' then level + 1 else if c = '}' then level - 1 else level
      match scanSep sep rest lv with
      | none => none
      | some (pre, n) => some (c :: pre, utf8Len c + n)

/-- Byte-level model of repeated `SafesplitIter::next` calls.  After a split
at relative byte offset `n` the iterator sets `i += n + 1` -- one byte past
the separator, regardless of the separator's UTF-8 length.  `none` models a
panic from slicing at a non-boundary index.  The fuel argument strictly
dominates the number of iterations. -/
def safesplitBytesGo (s : Str) (sep : Char) : Nat → Nat → Option (List Str)
  | _, 0 => none
  | i, fuel + 1 =>
    match dropBytes s i with
    | none => none
    | some suffix =>
      match scanSep sep suffix 0 with
      | none => some [suffix]
      | some (pre, n) =>
        match safesplitBytesGo s sep (i + n + 1) fuel with
        | none => none
        | some items => some (pre :: items)

/-- Byte-level model of `util::safesplit` followed by collecting the
iterator; `none` models a panic. -/
def safesplitBytes (s : Str) (sep : Char) : Option (List Str) :=
  if s = [] then some [] else safesplitBytesGo s sep 0 (byteLen s + 1)

/-! ## Balancer markers -/

/-- Scan tail of `left_balancer_end` (`'{'*` then `'>'`), accumulating the
number of characters seen so far. -/
def lbGo : Str → Nat → Option Nat
  | [], _ => none
  | c :: rest, k =>
    if c = '{' then lbGo rest (k + 1)
    else if c = '>' then some (k + 1)
    else none

/-- `util::left_balancer_end`: the number of characters making up a leading
left balancer `'<' '{'* '>'`, or `none` when the string does not start with
one. -/
def leftBalancerLen : Str → Option Nat
  | [] => none
  | c :: rest => if c = '<' then lbGo rest 1 else none

/-- Scan tail of `right_balancer_start` on the reversed string (`'}'*` then
`'<'`). -/
def rbGo2 : Str → Nat → Option Nat
  | [], _ => none
  | c :: rest, k =>
    if c = '}' then rbGo2 rest (k + 1)
    else if c = '<' then some (k + 1)
    else none

/-- Head of the reversed scan of `right_balancer_start`: the last character
must be `'>'`. -/
def rbGo : Str → Option Nat
  | [] => none
  | c :: rest => if c = '>' then rbGo2 rest 1 else none

/-- `util::right_balancer_start`, reported as the length of the trailing
right balancer `'<' '}'* '>'` (the Rust function returns its start index,
which is the string length minus this length). -/
def rightBalancerLen (s : Str) : Option Nat := rbGo s.reverse

/-- `util::starts_with_balancer`. -/
def startsWithBalancer (s : Str) : Bool := (leftBalancerLen s).isSome

/-- `util::ends_with_balancer`. -/
def endsWithBalancer (s : Str) : Bool := (rightBalancerLen s).isSome

/-! ## `protect` and `unprotect` -/

/-- The `ProtectTest` trait: an unconditional flag plus a character
predicate. -/
structure ProtectTest where
  uncond : Bool
  test : Char → Bool

/-- The scan loop of `util::protect`: threads the running level, the maximal
closing-brace excess `l` and the `needs_protection` flag through the string.
Returns `(l, level + l, needs_protection)`. -/
def protectScan (p : ProtectTest) : Str → Int → Int → Bool → Int × Int × Bool
  | [], level, l, np => (l, level + l, np)
  | c :: rest, level, l, np =>
    if c = '{' then protectScan p rest (level + 1) l np
    else if c = '}' then protectScan p rest (level - 1) (max l (1 - level)) np
    else protectScan p rest level l (np || (!p.uncond && decide (level = 0) && p.test c))

/-- `util::protect`: conditionally encloses the string in braces, inserting
left/right balancer markers when needed to balance or to disambiguate a
pre-existing marker-like affix. -/
def protect (s : Str) (p : ProtectTest) : Str :=
  match protectScan p s 0 0
      (if p.uncond then true
       else (decide (s.head? = some '{') && decide (s.getLast? = some '}'))) with
  | (l, r, np) =>
    if np || decide (0 < l) || decide (0 < r) then
      '{' :: ((if 0 < l ∨ startsWithBalancer s then '<' :: (List.replicate l.toNat '{' ++ ['>']) else [])
        ++ s
        ++ (if 0 < r ∨ endsWithBalancer s then '<' :: (List.replicate r.toNat '}' ++ ['>']) else [])
        ++ ['}'])
    else s

/-- The left padding emitted by `protect` when wrapping. -/
def lpad (s : Str) : Str :=
  if 0 < excessL s ∨ startsWithBalancer s then
    '<' :: (List.replicate (excessL s).toNat '{' ++ ['>'])
  else []

/-- The right padding emitted by `protect` when wrapping. -/
def rpad (s : Str) : Str :=
  if 0 < netR s ∨ endsWithBalancer s then
    '<' :: (List.replicate (netR s).toNat '}' ++ ['>'])
  else []

/-- The flag component of the `protect` scan, isolated: `true` iff some
character sitting at level 0 (and not itself a brace) satisfies the
non-unconditional predicate. -/
def hasTest0 (p : ProtectTest) : Str → Int → Bool
  | [], _ => false
  | c :: rest, lv =>
    if c = '{' then hasTest0 p rest (lv + 1)
    else if c = '}' then hasTest0 p rest (lv - 1)
    else (!p.uncond && decide (lv = 0) && p.test c) || hasTest0 p rest lv

/-- Plain level-0 character test (no unconditional guard): `true` iff some
non-brace character at nesting level 0 satisfies `t`. -/
def hasLevel0Char (t : Char → Bool) : Str → Int → Bool
  | [], _ => false
  | c :: rest, lv =>
    if c = '{' then hasLevel0Char t rest (lv + 1)
    else if c = '}' then hasLevel0Char t rest (lv - 1)
    else (decide (lv = 0) && t c) || hasLevel0Char t rest lv

/-- The `ProtectTestTrue` instance used by `protect_unconditionally`. -/
def unconditionalTest : ProtectTest := ⟨true, fun _ => true⟩

/-- The `ProtectTest` instance for `char` (protect on one character). -/
def charTest (sep : Char) : ProtectTest := ⟨false, fun c => c == sep⟩

/-- `util::protect_unconditionally`. -/
def protect_unconditionally (s : Str) : Str := protect s unconditionalTest

/-- `util::unprotect`: strips the outer brace pair and then a trailing right
balancer and a leading left balancer, if present. -/
def unprotect (s : Str) : Str :=
  if s.head? = some '{' ∧ s.getLast? = some '}' then
    let interior := (s.drop 1).dropLast
    let rcut :=
      match rightBalancerLen interior with
      | some k => interior.length - k
      | none => interior.length
    let trimmed := interior.take rcut
    let lcut :=
      match leftBalancerLen trimmed with
      | some n => n
      | none => 0
    trimmed.drop lcut
  else s

/-! ## `is_balanced` and `splitarg` -/

/-- The scan loop of `util::is_balanced`: returns `false` as soon as the
level would go negative, and checks the final level for zero. -/
def isBalancedGo : Str → Int → Bool
  | [], lv => decide (lv = 0)
  | c :: rest, lv =>
    if c = '{' then isBalancedGo rest (lv + 1)
    else if c = '}' then decide (0 < lv) && isBalancedGo rest (lv - 1)
    else isBalancedGo rest lv

/-- `util::is_balanced`. -/
def is_balanced (s : Str) : Bool := isBalancedGo s 0

/-- `str::find('{')`: index of the first `'{'`. -/
def findBrace : Str → Option Nat
  | [] => none
  | c :: rest => if c = '{' then some 0 else (findBrace rest).map (· + 1)

/-- The error type of `util::splitarg`. -/
inductive SplitArgError where
  | notAnEnum
deriving DecidableEq

/-- `util::splitarg`: splits a tag from an unconditionally protected
payload. -/
def splitarg (s : Str) : Except SplitArgError (Str × Str) :=
  if is_balanced s = true then
    match findBrace s with
    | some i =>
      if 0 < i ∧ s.getLast? = some '}' then .ok (s.take i, unprotect (s.drop i))
      else .error .notAnEnum
    | none => .ok (s, [])
  else .error .notAnEnum

/-! ## `prettify` -/

/-- Splitting a string at every occurrence of a character, as `str::split`:
always yields one more item than there are separators. -/
def splitOnChar (sep : Char) : Str → List Str
  | [] => [[]]
  | c :: rest =>
    if c = sep then [] :: splitOnChar sep rest
    else
      match splitOnChar sep rest with
      | [] => [[c]]
      | t :: ts => (c :: t) :: ts

/-- The literal-text rendering of one item of `prettify_scope`: escaped-block
form (`">|"` first line, `" |"` continuation lines) when the text is empty,
starts with a space or the literal `">|"`, or contains a newline; verbatim
otherwise. -/
def renderText (text indent : Str) : Str :=
  if text = [] ∨ text.head? = some ' ' ∨ text.take 2 = ['>', '|'] ∨ '\n' ∈ text then
    '>' :: '|' :: List.intercalate ('\n' :: (indent ++ [' ', '|'])) (splitOnChar '\n' text)
  else text

/-- One output line of `prettify_scope`: indent, rendered text, newline. -/
def renderLine (text indent : Str) : Str :=
  indent ++ renderText text indent ++ ['\n']

/-- The scope detection of `prettify_scope`: the first `'{'` must not be at
position 0, the item must end with `'}'`, and the substring between them must
be balanced. -/
def findScope (part : Str) : Option (Str × Str) :=
  match findBrace part with
  | none => none
  | some i =>
    if 0 < i ∧ part.getLast? = some '}' ∧ is_balanced ((part.drop (i + 1)).dropLast) = true then
      some (part.take i, (part.drop (i + 1)).dropLast)
    else none

/-- `util::prettify_scope`.  The recursion is driven by a bound that strictly
dominates the length of the processed string; since every nested scope is at
least two characters shorter than the string it came from, the zero case is
never reached from `prettify`. -/
def prettifyScopeB : Nat → Str → Str → Str
  | 0, _, _ => []
  | b + 1, s, indent =>
    if s = [] then indent ++ ['>', '|']
    else
      ((safesplit s ',').map (fun part =>
        match findScope part with
        | none => renderLine part indent
        | some (text, scope) =>
            renderLine text indent ++ prettifyScopeB b scope (indent ++ [' ', ' ']))).flatten

/-- `util::prettify`. -/
def prettify (s : Str) : Str :=
  if s = [] then [] else prettifyScopeB s.length s []

/-! ## `deprettify` -/

/-- The error type of `util::deprettify`. -/
inductive DeprettifyError where
  | indentTooSmall (lineno : Nat)
  | unmatchedUnindent (lineno : Nat)
deriving DecidableEq

/-- Number of leading spaces of a line. -/
def indentOf (line : Str) : Nat := (line.takeWhile (fun c => c == ' ')).length

/-- The continuation-line test of the escaped-block loop of `deprettify`:
`line.len() >= indent + 2`, the first `indent` characters are spaces, and the
two characters after them are `" |"`. -/
def contLine (ind : Nat) (line : Str) : Bool :=
  decide (ind + 2 ≤ line.length) && (line.take ind).all (fun c => c == ' ')
    && decide ((line.drop ind).take 2 = [' ', '|'])

/-- The escaped-block opening test of `deprettify` (same shape with
`">|"`). -/
def escLine (ind : Nat) (line : Str) : Bool :=
  decide (ind + 2 ≤ line.length) && (line.take ind).all (fun c => c == ' ')
    && decide ((line.drop ind).take 2 = ['>', '|'])

/-- The unindent loop of `deprettify`: pops stack entries until the top
equals `ind`, returning the number of pops, or `none` when the stack runs
out. -/
def popTo (ind : Nat) : List Nat → Option (Nat × List Nat)
  | [] => none
  | t :: ts =>
    if t = ind then some (0, t :: ts)
    else
      match popTo ind ts with
      | none => none
      | some (k, r) => some (k + 1, r)

/-- The indent-stack bookkeeping of `deprettify` for one non-empty line:
returns the new stack and the emitted delimiters, or the error raised for
this line.  The stack grows at the head. -/
def stackStep (ind : Nat) : List Nat → Nat → Except DeprettifyError (List Nat × Str)
  | [], _ => .ok ([ind], [])
  | t :: ts, iline =>
    if t < ind then
      if ind - t = 1 then .error (.indentTooSmall (iline + 1))
      else .ok (ind :: t :: ts, ['{'])
    else
      match popTo ind (t :: ts) with
      | none => .error (.unmatchedUnindent (iline + 1))
      | some (k, remaining) => .ok (remaining, List.replicate k '}' ++ [','])

/-- Processing of one line of `deprettify` that is not consumed as an
escaped-block continuation: returns the new stack, the new accumulated
output, and the indent of a just-opened escaped block (if any). -/
def freshLine (line : Str) (iline : Nat) (indents : List Nat) (acc : Str) :
    Except DeprettifyError (List Nat × Str × Option Nat) :=
  if line = [] then .ok (indents, acc, none)
  else
    let ind := indentOf line
    match stackStep ind indents iline with
    | .error e => .error e
    | .ok (indents2, opens) =>
      if escLine ind line then .ok (indents2, acc ++ opens ++ line.drop (ind + 2), some ind)
      else .ok (indents2, acc ++ opens ++ line.drop ind, none)

/-- The line loop of `util::deprettify`.  The `esc` component carries the
indent of the currently open escaped block, replacing the peeking inner loop
of the Rust code by an equivalent state machine: a line matching the
continuation pattern at that indent is appended with a joining newline, any
other line closes the block and is processed afresh. -/
def deprettifyGo : List Str → Nat → List Nat → Str → Option Nat → Except DeprettifyError Str
  | [], _, indents, acc, _ => .ok (acc ++ List.replicate (indents.length - 1) '}')
  | line :: rest, iline, indents, acc, esc =>
    match
      (match esc with
       | some ind => if contLine ind line then some ind else none
       | none => none) with
    | some ind =>
        deprettifyGo rest (iline + 1) indents (acc ++ '\n' :: line.drop (ind + 2)) (some ind)
    | none =>
      match freshLine line iline indents acc with
      | .error e => .error e
      | .ok (i2, a2, e2) => deprettifyGo rest (iline + 1) i2 a2 e2

/-- `util::deprettify`. -/
def deprettify (pretty : Str) : Except DeprettifyError Str :=
  deprettifyGo (splitOnChar '\n' pretty) 0 [] [] none

/-! ## The serializer fragments relevant to empty scopes (`ser.rs`) -/

/-- `ser::protect_comma_or_empty`. -/
def protect_comma_or_empty (s : Str) : Str :=
  if s = [] then ['{', '}'] else protect s (charTest ',')

/-- `SerializeTupleVariant::end` (equally `SerializeStructVariant::end`) for
a variant whose accumulated output is empty, i.e. a tuple or struct variant
with zero fields: `variant ++ protect_unconditionally("")`. -/
def serializeEmptyTupleVariant (variant : Str) : Str :=
  variant ++ protect_unconditionally []

/-- The output accumulated by `SerializeSeq`/`SerializeTuple` over already
serialized element values: each element is protected by
`protect_comma_or_empty` and elements are joined with commas. -/
def serializeSeqElems (elems : List Str) : Str :=
  List.intercalate [','] (elems.map protect_comma_or_empty)

/-! ## Sanity examples

These replicate documentation examples and unit tests of `util.rs`, checking
that the embedding computes the same values as the Rust code. -/

example : safesplit ("a,b,\x7bc,d\x7d".toList) ',' = ["a".toList, "b".toList, "\x7bc,d\x7d".toList] := rfl

example : safesplit ([] : Str) ',' = [] := rfl

example : safesplit (",".toList) ',' = [[], []] := rfl

example : protect ("a,b,c".toList) (charTest ',') = "\x7ba,b,c\x7d".toList := rfl

example : protect ("a\x7bb,c\x7d".toList) (charTest ',') = "a\x7bb,c\x7d".toList := rfl

example : protect ("\x7d".toList) (charTest ',') = "\x7b<\x7b>\x7d\x7d".toList := rfl

example : protect_unconditionally ([] : Str) = "\x7b\x7d".toList := rfl

example : protect ("\x7babc\x7b".toList) (charTest ',') = "\x7b\x7babc\x7b<\x7d\x7d>\x7d".toList := rfl

example : protect ("\x7dabc\x7b".toList) (charTest ',') = "\x7b<\x7b>\x7dabc\x7b<\x7d>\x7d".toList := rfl

example : protect ("<\x7b>".toList) (charTest ',') = "\x7b<><\x7b><\x7d>\x7d".toList := rfl

example : protect ("<>".toList) unconditionalTest = "\x7b<><><>\x7d".toList := rfl

example : unprotect ("\x7b<\x7b>\x7d\x7d".toList) = "\x7d".toList := rfl

example : unprotect ("\x7b<><><>\x7d".toList) = "<>".toList := rfl

example : splitarg ("key\x7bval\x7d".toList) = .ok ("key".toList, "val".toList) := rfl

example : splitarg ("key\x7b<\x7b>val\x7d\x7d".toList) = .ok ("key".toList, "val\x7d".toList) := rfl

example : splitarg ("key\x7bval\x7d\x7d".toList) = .error .notAnEnum := rfl

example : splitarg ("k\x7dey\x7bval".toList) = .error .notAnEnum := rfl

example : prettify ("a=1,b=c".toList) = "a=1\nb=c\n".toList := rfl

example : prettify ("a=1,b=\x7bc=2,d=3\x7d,e=4".toList) = "a=1\nb=\n  c=2\n  d=3\ne=4\n".toList := rfl

example : prettify ("a=\x7b b,\nc\x7d".toList) = "a=\n  >| b\n  >|\n   |c\n".toList := rfl

example : deprettify ("a=1\nb=c\n".toList) = .ok ("a=1,b=c".toList) := rfl

example : deprettify ("a=\n  >| b\n  >|\n   |c\n".toList) = .ok ("a=\x7b b,\nc\x7d".toList) := rfl

example : deprettify ("  a=b\n  c=\n    d\n".toList) = .ok ("a=b,c=\x7bd\x7d".toList) := rfl

example : deprettify ("a=\n  b\n c\n".toList) = .error (.unmatchedUnindent 3) := rfl

example : deprettify ("a=\n  >|\n   b\n".toList) = .error (.indentTooSmall 3) := rfl

/-! ## Level arithmetic -/

theorem levelOf_append (a b : Str) : levelOf (a ++ b) = levelOf a + levelOf b := by
  induction a with
  | nil => simp [levelOf]
  | cons c rest ih => simp [levelOf, ih]; ring

theorem levelOf_replicate_open (n : Nat) : levelOf (List.replicate n '{') = n := by
  induction n with
  | zero => simp [levelOf]
  | succ n ih =>
    rw [List.replicate_succ]
    show chLv '{' + levelOf (List.replicate n '{') = _
    rw [ih, show chLv '{' = 1 from rfl]
    omega

theorem levelOf_replicate_close (n : Nat) : levelOf (List.replicate n '}') = -n := by
  induction n with
  | zero => simp [levelOf]
  | succ n ih =>
    rw [List.replicate_succ]
    show chLv '}' + levelOf (List.replicate n '}') = _
    rw [ih, show chLv '}' = -1 from rfl]
    omega

theorem minPts_le_start (s : Str) : ∀ lv : Int, minPts s lv ≤ lv := by
  induction s with
  | nil => intro lv; simp [minPts]
  | cons c rest ih => intro lv; simp [minPts]

theorem minPts_le_level (s : Str) : ∀ lv : Int, minPts s lv ≤ lv + levelOf s := by
  induction s with
  | nil => intro lv; simp [minPts, levelOf]
  | cons c rest ih =>
    intro lv
    simp only [minPts, levelOf]
    have h := ih (lv + chLv c)
    omega

theorem minPts_shift (s : Str) : ∀ a lv : Int, minPts s (a + lv) = a + minPts s lv := by
  induction s with
  | nil => intro a lv; simp [minPts]
  | cons c rest ih =>
    intro a lv
    simp only [minPts]
    rw [add_assoc, ih]
    omega

theorem minPts_append (a b : Str) : ∀ lv : Int,
    minPts (a ++ b) lv = min (minPts a lv) (minPts b (lv + levelOf a)) := by
  induction a with
  | nil =>
    intro lv
    have h := minPts_le_start b lv
    simp only [List.nil_append, minPts, levelOf, add_zero]
    omega
  | cons c rest ih =>
    intro lv
    show min lv (minPts (rest ++ b) (lv + chLv c))
        = min (min lv (minPts rest (lv + chLv c))) (minPts b (lv + (chLv c + levelOf rest)))
    rw [ih, show lv + (chLv c + levelOf rest) = lv + chLv c + levelOf rest by ring]
    omega

theorem excessL_nonneg (s : Str) : 0 ≤ excessL s := by
  unfold excessL; omega

theorem minPts_ge_neg_excessL (s : Str) : -(excessL s) ≤ minPts s 0 := by
  unfold excessL; omega

theorem netR_nonneg (s : Str) : 0 ≤ netR s := by
  have h1 := minPts_le_level s 0
  have h2 := minPts_ge_neg_excessL s
  unfold netR
  omega

/-! ## The `protect` scan -/

theorem protectScan_fst (p : ProtectTest) (s : Str) :
    ∀ (lv l : Int) (np : Bool), -lv ≤ l →
      (protectScan p s lv l np).1 = max l (-(minPts s lv)) := by
  induction s with
  | nil => intro lv l np h; simp only [protectScan, minPts]; omega
  | cons c rest ih =>
    intro lv l np h
    simp only [protectScan, minPts]
    by_cases hc : c = '{'
    · have hch : chLv c = 1 := by rw [hc]; decide
      rw [if_pos hc, hch, ih (lv + 1) l np (by omega)]
      omega
    · by_cases hc2 : c = '}'
      · have hch : chLv c = -1 := by rw [hc2]; decide
        rw [if_neg hc, if_pos hc2, hch,
          show lv + (-1 : Int) = lv - 1 by ring,
          ih (lv - 1) (max l (1 - lv)) np (by omega)]
        have hst := minPts_le_start rest (lv - 1)
        omega
      · have hch : chLv c = 0 := by simp [chLv, hc, hc2]
        rw [if_neg hc, if_neg hc2, hch, add_zero, ih lv l _ h]
        omega

theorem protectScan_snd (p : ProtectTest) (s : Str) :
    ∀ (lv l : Int) (np : Bool),
      (protectScan p s lv l np).2.1 = lv + levelOf s + (protectScan p s lv l np).1 := by
  induction s with
  | nil => intro lv l np; simp [protectScan, levelOf]
  | cons c rest ih =>
    intro lv l np
    simp only [protectScan, levelOf]
    by_cases hc : c = '{'
    · have hch : chLv c = 1 := by rw [hc]; decide
      rw [if_pos hc, hch, ih]
      omega
    · by_cases hc2 : c = '}'
      · have hch : chLv c = -1 := by rw [hc2]; decide
        rw [if_neg hc, if_pos hc2, hch, ih]
        omega
      · have hch : chLv c = 0 := by simp [chLv, hc, hc2]
        rw [if_neg hc, if_neg hc2, hch, zero_add, ih]

theorem protectScan_np (p : ProtectTest) (s : Str) :
    ∀ (lv l : Int) (np : Bool),
      (protectScan p s lv l np).2.2 = (np || hasTest0 p s lv) := by
  induction s with
  | nil => intro lv l np; simp [protectScan, hasTest0]
  | cons c rest ih =>
    intro lv l np
    simp only [protectScan, hasTest0]
    by_cases hc : c = '{'
    · rw [if_pos hc, if_pos hc, ih]
    · by_cases hc2 : c = '}'
      · rw [if_neg hc, if_pos hc2, if_neg hc, if_pos hc2, ih]
      · rw [if_neg hc, if_neg hc2, if_neg hc, if_neg hc2, ih, Bool.or_assoc]

theorem protectScan_eq (p : ProtectTest) (s : Str) (np0 : Bool) :
    protectScan p s 0 0 np0 = (excessL s, netR s, np0 || hasTest0 p s 0) := by
  have h1 := protectScan_fst p s 0 0 np0 (by omega)
  have h2 := protectScan_snd p s 0 0 np0
  have h3 := protectScan_np p s 0 0 np0
  rcases hsc : protectScan p s 0 0 np0 with ⟨l, r, np⟩
  rw [hsc] at h1 h2 h3
  simp only at h1 h2 h3
  have e1 : l = excessL s := by unfold excessL; omega
  have e2 : r = netR s := by unfold netR excessL; omega
  rw [e1, e2, h3]

/-- `protect`, rewritten in terms of the specification-side quantities
`excessL`, `netR` and `hasTest0`. -/
theorem protect_eq (s : Str) (p : ProtectTest) :
    protect s p =
      if ((p.uncond || (decide (s.head? = some '{') && decide (s.getLast? = some '}')))
          || hasTest0 p s 0)
          || decide (0 < excessL s) || decide (0 < netR s) then
        '{' :: (lpad s ++ s ++ (rpad s ++ ['}']))
      else s := by
  unfold protect
  rw [protectScan_eq]
  cases hp : p.uncond
  · simp [hp, lpad, rpad, List.append_assoc]
  · simp [hp, lpad, rpad, List.append_assoc]

/-! ## `is_balanced` characterized -/

theorem isBalancedGo_iff (s : Str) : ∀ lv : Int, 0 ≤ lv →
    (isBalancedGo s lv = true ↔ (lv + levelOf s = 0 ∧ 0 ≤ minPts s lv)) := by
  induction s with
  | nil =>
    intro lv h
    simp only [isBalancedGo, levelOf, minPts, decide_eq_true_eq, add_zero]
    omega
  | cons c rest ih =>
    intro lv h
    simp only [isBalancedGo, levelOf, minPts]
    by_cases hc : c = '{'
    · have hch : chLv c = 1 := by rw [hc]; decide
      rw [if_pos hc, hch, ih (lv + 1) (by omega)]
      omega
    · by_cases hc2 : c = '}'
      · have hch : chLv c = -1 := by rw [hc2]; decide
        rw [if_neg hc, if_pos hc2, hch, show lv + (-1 : Int) = lv - 1 by ring]
        by_cases hpos : (0 : Int) < lv
        · simp only [Bool.and_eq_true, decide_eq_true_eq]
          rw [ih (lv - 1) (by omega)]
          omega
        · have hlv : lv = 0 := by omega
          subst hlv
          have hst := minPts_le_start rest ((0 : Int) - 1)
          simp only [show (decide ((0 : Int) < 0)) = false from by decide, Bool.false_and,
            Bool.false_eq_true, false_iff]
          omega
      · have hch : chLv c = 0 := by simp [chLv, hc, hc2]
        rw [if_neg hc, if_neg hc2, hch, add_zero, ih lv h]
        omega

theorem is_balanced_iff (s : Str) :
    is_balanced s = true ↔ (levelOf s = 0 ∧ 0 ≤ minPts s 0) := by
  unfold is_balanced
  rw [isBalancedGo_iff s 0 (by omega)]
  omega

/-! ## The padding strings of `protect` -/

theorem minPts_open_run (n : Nat) : ∀ lv : Int,
    minPts (List.replicate n '{' ++ ['>']) lv = lv := by
  induction n with
  | zero =>
    intro lv
    show min lv (minPts [] (lv + chLv '>')) = lv
    simp [minPts, chLv]
  | succ n ih =>
    intro lv
    rw [List.replicate_succ]
    show min lv (minPts (List.replicate n '{' ++ ['>']) (lv + chLv '{')) = lv
    rw [ih, show chLv '{' = 1 from by decide]
    omega

theorem minPts_close_run (n : Nat) : ∀ lv : Int,
    minPts (List.replicate n '}' ++ ['>']) lv = lv - n := by
  induction n with
  | zero =>
    intro lv
    show min lv (minPts [] (lv + chLv '>')) = lv - 0
    simp [minPts, chLv]
  | succ n ih =>
    intro lv
    rw [List.replicate_succ]
    show min lv (minPts (List.replicate n '}' ++ ['>']) (lv + chLv '}')) = lv - (n + 1 : Nat)
    rw [ih, show chLv '}' = -1 from by decide]
    push_cast
    omega

theorem levelOf_lpad (s : Str) : levelOf (lpad s) = excessL s := by
  unfold lpad
  split
  · show chLv '<' + levelOf (List.replicate (excessL s).toNat '{' ++ ['>']) = _
    rw [levelOf_append, levelOf_replicate_open, show chLv '<' = 0 from by decide,
      show levelOf ['>'] = 0 from by decide]
    have := excessL_nonneg s
    omega
  · rename_i hcond
    push_neg at hcond
    have h1 : excessL s ≤ 0 := by omega
    have h2 := excessL_nonneg s
    show (0 : Int) = excessL s
    omega

theorem levelOf_rpad (s : Str) : levelOf (rpad s) = -(netR s) := by
  unfold rpad
  split
  · show chLv '<' + levelOf (List.replicate (netR s).toNat '}' ++ ['>']) = _
    rw [levelOf_append, levelOf_replicate_close, show chLv '<' = 0 from by decide,
      show levelOf ['>'] = 0 from by decide]
    have := netR_nonneg s
    omega
  · rename_i hcond
    push_neg at hcond
    have h1 : netR s ≤ 0 := by omega
    have h2 := netR_nonneg s
    show (0 : Int) = -(netR s)
    omega

theorem minPts_lpad (s : Str) : ∀ lv : Int, minPts (lpad s) lv = lv := by
  intro lv
  unfold lpad
  split
  · show min lv (minPts (List.replicate (excessL s).toNat '{' ++ ['>']) (lv + chLv '<')) = lv
    rw [show chLv '<' = 0 from by decide, add_zero, minPts_open_run]
    omega
  · rfl

theorem minPts_rpad (s : Str) : ∀ lv : Int, minPts (rpad s) lv = lv - netR s := by
  intro lv
  unfold rpad
  split
  · show min lv (minPts (List.replicate (netR s).toNat '}' ++ ['>']) (lv + chLv '<')) = lv - netR s
    rw [show chLv '<' = 0 from by decide, add_zero, minPts_close_run]
    have h1 := netR_nonneg s
    have h2 : ((netR s).toNat : Int) = netR s := Int.toNat_of_nonneg h1
    omega
  · rename_i hcond
    push_neg at hcond
    have h1 : netR s ≤ 0 := by omega
    have h2 := netR_nonneg s
    show lv = lv - netR s
    omega

/-- The interior of a wrapped `protect` output is level-neutral. -/
theorem interior_level (s : Str) : levelOf (lpad s ++ s ++ rpad s) = 0 := by
  rw [levelOf_append, levelOf_append, levelOf_lpad, levelOf_rpad]
  unfold netR
  omega

/-- Every scan point of the interior of a wrapped `protect` output sits at
level at least one (exactly one at the ends). -/
theorem interior_minPts (s : Str) : minPts (lpad s ++ s ++ rpad s) 1 = 1 := by
  rw [minPts_append, minPts_append, levelOf_append, minPts_lpad, minPts_rpad,
    levelOf_lpad]
  have h1 : minPts s (1 + excessL s) = (1 + excessL s) + minPts s 0 := by
    rw [show (1 + excessL s : Int) = (1 + excessL s) + 0 by ring, minPts_shift]
    ring_nf
  rw [h1]
  have h2 := minPts_ge_neg_excessL s
  unfold netR
  omega

/-! ## C3: balance of `protect` -/

/-- C3: for every string `s` and every protection predicate `p`,
`is_balanced (protect s p)` is true: every protected token is balanced under
pure brace counting. -/
theorem protect_is_balanced (s : Str) (p : ProtectTest) :
    is_balanced (protect s p) = true := by
  rw [protect_eq]
  split
  · rw [is_balanced_iff]
    constructor
    · show chLv '{' + levelOf (lpad s ++ s ++ (rpad s ++ ['}'])) = 0
      rw [show lpad s ++ s ++ (rpad s ++ ['}']) = (lpad s ++ s ++ rpad s) ++ ['}'] by
        simp [List.append_assoc]]
      rw [levelOf_append, interior_level, show chLv '{' = 1 from by decide,
        show levelOf ['}'] = -1 from by decide]
      omega
    · show 0 ≤ min 0 (minPts (lpad s ++ s ++ (rpad s ++ ['}'])) (0 + chLv '{'))
      rw [show lpad s ++ s ++ (rpad s ++ ['}']) = (lpad s ++ s ++ rpad s) ++ ['}'] by
        simp [List.append_assoc]]
      rw [show (0 : Int) + chLv '{' = 1 from by decide, minPts_append, interior_minPts,
        interior_level]
      show 0 ≤ min 0 (min 1 (minPts ['}'] (1 + 0)))
      rw [show minPts ['}'] (1 + 0 : Int) = 0 from by decide]
      omega
  · rename_i hcond
    rw [is_balanced_iff]
    have hl : ¬ (0 < excessL s) := fun hgt => hcond (by simp [hgt])
    have hr : ¬ (0 < netR s) := fun hgt => hcond (by simp [hgt])
    have h1 := excessL_nonneg s
    have h0 := netR_nonneg s
    have h2 : excessL s = 0 := by omega
    have h3 : netR s = 0 := by omega
    have h4 := minPts_ge_neg_excessL s
    unfold netR at h3
    omega

/-! ## Balancer-marker recognition -/

theorem lbGo_run (n : Nat) : ∀ (k : Nat) (y : Str),
    lbGo (List.replicate n '{' ++ ('>' :: y)) k = some (k + n + 1) := by
  induction n with
  | zero =>
    intro k y
    show lbGo ('>' :: y) k = some (k + 0 + 1)
    simp [lbGo]
  | succ n ih =>
    intro k y
    rw [List.replicate_succ]
    show lbGo (List.replicate n '{' ++ ('>' :: y)) (k + 1) = some (k + (n + 1) + 1)
    rw [ih]
    congr 1
    omega

/-- A string that begins with a left balancer marker followed by anything is
recognized, and the recognized length never reaches into the tail. -/
theorem leftBalancerLen_wrap (n : Nat) (y : Str) :
    leftBalancerLen (('<' :: (List.replicate n '{' ++ ['>'])) ++ y) = some (n + 2) := by
  show lbGo ((List.replicate n '{' ++ ['>']) ++ y) 1 = some (n + 2)
  rw [List.append_assoc, List.singleton_append, lbGo_run]
  congr 1
  omega

theorem rbGo2_run (n : Nat) : ∀ (k : Nat) (y : Str),
    rbGo2 (List.replicate n '}' ++ ('<' :: y)) k = some (k + n + 1) := by
  induction n with
  | zero =>
    intro k y
    show rbGo2 ('<' :: y) k = some (k + 0 + 1)
    simp [rbGo2]
  | succ n ih =>
    intro k y
    rw [List.replicate_succ]
    show rbGo2 (List.replicate n '}' ++ ('<' :: y)) (k + 1) = some (k + (n + 1) + 1)
    rw [ih]
    congr 1
    omega

/-- A string that ends with a right balancer marker is recognized, and the
recognized length never reaches into the front. -/
theorem rightBalancerLen_wrap (x : Str) (n : Nat) :
    rightBalancerLen (x ++ ('<' :: (List.replicate n '}' ++ ['>']))) = some (n + 2) := by
  unfold rightBalancerLen
  rw [List.reverse_append, List.reverse_cons, List.reverse_append,
    List.reverse_replicate]
  show rbGo ((['>'] ++ List.replicate n '}') ++ ['<'] ++ x.reverse) = some (n + 2)
  rw [List.append_assoc, List.append_assoc, List.singleton_append]
  show rbGo2 (List.replicate n '}' ++ ('<' :: x.reverse)) 1 = some (n + 2)
  rw [rbGo2_run]
  congr 1
  omega

theorem rbGo2_ext (xs : Str) : ∀ (k : Nat) (zs : Str), rbGo2 xs k = none →
    rbGo2 (xs ++ ('>' :: zs)) k = none := by
  induction xs with
  | nil =>
    intro k zs _
    show rbGo2 ('>' :: zs) k = none
    simp [rbGo2]
  | cons c rest ih =>
    intro k zs h
    simp only [rbGo2, List.cons_append] at h ⊢
    by_cases hc : c = '}'
    · rw [if_pos hc] at h ⊢
      exact ih _ _ h
    · by_cases hc2 : c = '<'
      · rw [if_neg hc, if_pos hc2] at h
        exact absurd h (by simp)
      · rw [if_neg hc, if_neg hc2]

/-- If a non-empty string does not end with a right balancer, prepending a
left balancer marker does not create one. -/
theorem rightBalancerLen_extend (s : Str) (hs : s ≠ []) (n : Nat)
    (h : rightBalancerLen s = none) :
    rightBalancerLen (('<' :: (List.replicate n '{' ++ ['>'])) ++ s) = none := by
  unfold rightBalancerLen at h ⊢
  rw [List.reverse_append, List.reverse_cons, List.reverse_append,
    List.reverse_replicate, show (['>'] : Str).reverse = ['>'] from rfl]
  rcases hrev : s.reverse with _ | ⟨c, cs⟩
  · exact absurd (by simpa using congrArg List.reverse hrev) hs
  · rw [hrev] at h
    show rbGo (c :: (cs ++ ((['>'] ++ List.replicate n '{') ++ ['<']))) = none
    simp only [rbGo] at h ⊢
    by_cases hc : c = '>'
    · rw [if_pos hc] at h ⊢
      rw [List.append_assoc, List.singleton_append]
      exact rbGo2_ext cs 1 _ h
    · rw [if_neg hc]

theorem startsWithBalancer_false (s : Str) (h : startsWithBalancer s = false) :
    leftBalancerLen s = none := by
  unfold startsWithBalancer at h
  exact Option.not_isSome_iff_eq_none.mp (by simp [h])

theorem endsWithBalancer_false (s : Str) (h : endsWithBalancer s = false) :
    rightBalancerLen s = none := by
  unfold endsWithBalancer at h
  exact Option.not_isSome_iff_eq_none.mp (by simp [h])

/-! ## C1: the protect/unprotect round trip -/

theorem lpad_length (s : Str) (h : 0 < excessL s ∨ startsWithBalancer s) :
    (lpad s).length = (excessL s).toNat + 2 := by
  unfold lpad
  rw [if_pos h]
  simp

theorem rpad_length (s : Str) (h : 0 < netR s ∨ endsWithBalancer s) :
    (rpad s).length = (netR s).toNat + 2 := by
  unfold rpad
  rw [if_pos h]
  simp

/-- Dropping the recognized left balancer length from the padded string
recovers `s`. -/
theorem drop_lcut (s : Str) :
    List.drop
      (match leftBalancerLen (lpad s ++ s) with
       | some n => n
       | none => 0)
      (lpad s ++ s) = s := by
  by_cases hl : 0 < excessL s ∨ startsWithBalancer s
  · have hlpad : lpad s = '<' :: (List.replicate (excessL s).toNat '{' ++ ['>']) := by
      unfold lpad
      rw [if_pos hl]
    rw [hlpad]
    simp only [leftBalancerLen_wrap]
    rw [show (excessL s).toNat + 2
        = ('<' :: (List.replicate (excessL s).toNat '{' ++ ['>'])).length by simp]
    exact List.drop_left _ _
  · have hlpad : lpad s = [] := by
      unfold lpad
      rw [if_neg hl]
    push_neg at hl
    have hf : startsWithBalancer s = false := by
      cases hb : startsWithBalancer s
      · rfl
      · exact absurd hb hl.2
    have hnb : leftBalancerLen s = none := startsWithBalancer_false s hf
    rw [hlpad, List.nil_append]
    simp only [hnb]
    exact List.drop_zero _

/-- `unprotect` recovers `s` exactly from the wrapped form emitted by
`protect`. -/
theorem unprotect_wrapped (s : Str) :
    unprotect ('{' :: (lpad s ++ s ++ (rpad s ++ ['}']))) = s := by
  have hlast : ('{' :: (lpad s ++ s ++ (rpad s ++ ['}']))).getLast? = some '}' := by
    rw [show '{' :: (lpad s ++ s ++ (rpad s ++ ['}']))
        = ('{' :: (lpad s ++ s ++ rpad s)) ++ ['}'] by simp [List.append_assoc]]
    exact List.getLast?_concat _
  have hint : (List.drop 1 ('{' :: (lpad s ++ s ++ (rpad s ++ ['}'])))).dropLast
      = (lpad s ++ s) ++ rpad s := by
    show (lpad s ++ s ++ (rpad s ++ ['}'])).dropLast = (lpad s ++ s) ++ rpad s
    rw [show lpad s ++ s ++ (rpad s ++ ['}']) = ((lpad s ++ s) ++ rpad s) ++ ['}'] by
      simp [List.append_assoc]]
    exact List.dropLast_concat
  simp only [unprotect]
  rw [if_pos ⟨rfl, hlast⟩, hint]
  by_cases hr : 0 < netR s ∨ endsWithBalancer s
  · -- a right balancer was emitted and is recognized exactly
    have hrpad : rpad s = '<' :: (List.replicate (netR s).toNat '}' ++ ['>']) := by
      unfold rpad
      rw [if_pos hr]
    rw [hrpad]
    simp only [rightBalancerLen_wrap]
    rw [show ((lpad s ++ s) ++ ('<' :: (List.replicate (netR s).toNat '}' ++ ['>']))).length
        - ((netR s).toNat + 2) = (lpad s ++ s).length by simp; omega]
    rw [List.take_left]
    exact drop_lcut s
  · -- no right balancer was emitted, and none is recognized
    have hrpad : rpad s = [] := by
      unfold rpad
      rw [if_neg hr]
    push_neg at hr
    have hnone : rightBalancerLen (lpad s ++ s) = none := by
      have hf : endsWithBalancer s = false := by
        cases hb : endsWithBalancer s
        · rfl
        · exact absurd hb hr.2
      have hnb : rightBalancerLen s = none := endsWithBalancer_false s hf
      by_cases hl : 0 < excessL s ∨ startsWithBalancer s
      · have hlpad : lpad s = '<' :: (List.replicate (excessL s).toNat '{' ++ ['>']) := by
          unfold lpad
          rw [if_pos hl]
        by_cases hse : s = []
        · subst hse
          exact absurd hl (by decide)
        · rw [hlpad]
          exact rightBalancerLen_extend s hse _ hnb
      · have hlpad : lpad s = [] := by
          unfold lpad
          rw [if_neg hl]
        rw [hlpad, List.nil_append]
        exact hnb
    rw [hrpad, List.append_nil]
    simp only [hnone]
    rw [List.take_length]
    exact drop_lcut s

/-- C1: for every string `s` and every protection predicate `p` (including
the unconditional marker), `unprotect (protect s p) = s`: protect followed by
unprotect round-trips exactly, with no failure mode. -/
theorem protect_unprotect (s : Str) (p : ProtectTest) :
    unprotect (protect s p) = s := by
  rw [protect_eq]
  split
  · exact unprotect_wrapped s
  · rename_i hcond
    have hbr : ¬(s.head? = some '{' ∧ s.getLast? = some '}') := by
      intro ⟨hh, hg⟩
      exact hcond (by simp [hh, hg])
    unfold unprotect
    rw [if_neg hbr]

/-! ## C6: minimality of `protect` -/

theorem hasTest0_eq_hasLevel0Char (p : ProtectTest) (hu : p.uncond = false) (s : Str) :
    ∀ lv : Int, hasTest0 p s lv = hasLevel0Char p.test s lv := by
  induction s with
  | nil => intro lv; rfl
  | cons c rest ih =>
    intro lv
    simp only [hasTest0, hasLevel0Char, hu, Bool.not_false, Bool.true_and, ih]

/-- C6: if `s` is balanced, does not both start with a brace and end with a
brace, and contains no non-brace character at nesting level 0 satisfying the
(non-unconditional) predicate, then `protect` returns `s` unchanged. -/
theorem protect_minimal (s : Str) (p : ProtectTest)
    (hu : p.uncond = false)
    (hbal : is_balanced s = true)
    (hbr : ¬(s.head? = some '{' ∧ s.getLast? = some '}'))
    (hch : hasLevel0Char p.test s 0 = false) :
    protect s p = s := by
  rw [protect_eq]
  rw [is_balanced_iff] at hbal
  have h1 : excessL s = 0 := by
    have := excessL_nonneg s
    unfold excessL at *
    omega
  have h2 : netR s = 0 := by
    unfold netR
    omega
  rw [if_neg]
  intro hcontra
  simp only [Bool.or_eq_true, Bool.and_eq_true, decide_eq_true_eq] at hcontra
  rcases hcontra with (((hA | hB) | hC) | hD) | hE
  · rw [hu] at hA
    exact absurd hA (by simp)
  · exact hbr hB
  · rw [hasTest0_eq_hasLevel0Char p hu s 0] at hC
    simp [hch] at hC
  · omega
  · omega

/-- Witness for C6 at `s = "ab"`, `p` the comma predicate. -/
theorem protect_minimal_witness :
    ((charTest ',').uncond = false
      ∧ is_balanced ("ab".toList) = true
      ∧ ¬(("ab".toList).head? = some '{' ∧ ("ab".toList).getLast? = some '}')
      ∧ hasLevel0Char (charTest ',').test ("ab".toList) 0 = false)
    ∧ protect ("ab".toList) (charTest ',') = "ab".toList :=
  ⟨⟨by decide, by decide, by decide, by decide⟩,
    protect_minimal ("ab".toList) (charTest ',') (by decide) (by decide) (by decide) (by decide)⟩

/-! ## C4: idempotent splitting (corrected) -/

theorem hasSep0_of_pos (sep : Char) (s : Str) :
    ∀ lv : Int, 0 < minPts s lv → hasSep0 sep s lv = false := by
  induction s with
  | nil => intro lv _; rfl
  | cons c rest ih =>
    intro lv h
    have hst : minPts (c :: rest) lv ≤ lv := minPts_le_start _ _
    have hrest : 0 < minPts rest (lv + chLv c) := by
      simp only [minPts] at h
      omega
    simp only [hasSep0]
    rw [if_neg (by
      intro ⟨_, hlv⟩
      omega)]
    by_cases hc : c = '{'
    · have hch : chLv c = 1 := by rw [hc]; decide
      rw [if_pos hc]
      exact ih (lv + 1) (by rw [hch] at hrest; exact hrest)
    · by_cases hc2 : c = '}'
      · have hch : chLv c = -1 := by rw [hc2]; decide
        rw [if_neg hc, if_pos hc2]
        refine ih (lv - 1) ?_
        rw [hch, show lv + (-1 : Int) = lv - 1 by ring] at hrest
        exact hrest
      · have hch : chLv c = 0 := by simp [chLv, hc, hc2]
        rw [if_neg hc, if_neg hc2]
        refine ih lv ?_
        rw [hch, add_zero] at hrest
        exact hrest

theorem hasSep0_append (sep : Char) (a : Str) : ∀ (b : Str) (lv : Int),
    hasSep0 sep a lv = false →
      hasSep0 sep (a ++ b) lv = hasSep0 sep b (lv + levelOf a) := by
  induction a with
  | nil =>
    intro b lv _
    simp [levelOf]
  | cons c rest ih =>
    intro b lv h
    simp only [hasSep0, List.cons_append, List.append_eq] at h ⊢
    by_cases h0 : c = sep ∧ lv = 0
    · rw [if_pos h0] at h
      exact absurd h (by simp)
    · rw [if_neg h0] at h ⊢
      by_cases hc : c = '{'
      · have hch : chLv c = 1 := by rw [hc]; decide
        rw [if_pos hc] at h ⊢
        rw [ih b (lv + 1) h]
        congr 1
        simp only [levelOf, hch]
        ring
      · by_cases hc2 : c = '}'
        · have hch : chLv c = -1 := by rw [hc2]; decide
          rw [if_neg hc, if_pos hc2] at h ⊢
          rw [ih b (lv - 1) h]
          congr 1
          simp only [levelOf, hch]
          ring
        · have hch : chLv c = 0 := by simp [chLv, hc, hc2]
          rw [if_neg hc, if_neg hc2] at h ⊢
          rw [ih b lv h]
          congr 1
          simp only [levelOf, hch]
          ring

theorem safesplitGo_nosplit (sep : Char) (s : Str) :
    ∀ (lv : Int) (acc : Str), hasSep0 sep s lv = false →
      safesplitGo sep s lv acc = [acc.reverse ++ s] := by
  induction s with
  | nil =>
    intro lv acc _
    simp [safesplitGo]
  | cons c rest ih =>
    intro lv acc h
    simp only [hasSep0] at h
    simp only [safesplitGo]
    by_cases h0 : c = sep ∧ lv = 0
    · rw [if_pos h0] at h
      exact absurd h (by simp)
    · rw [if_neg h0] at h ⊢
      have hacc : ∀ lv2, hasSep0 sep rest lv2 = false →
          safesplitGo sep rest lv2 (c :: acc) = [acc.reverse ++ c :: rest] := by
        intro lv2 h2
        rw [ih lv2 (c :: acc) h2, List.reverse_cons, List.append_assoc,
          List.singleton_append]
      by_cases hc : c = '{'
      · rw [if_pos hc] at h ⊢
        exact hacc _ h
      · by_cases hc2 : c = '}'
        · rw [if_neg hc, if_pos hc2] at h ⊢
          exact hacc _ h
        · rw [if_neg hc, if_neg hc2] at h ⊢
          exact hacc _ h

/-- The wrapped output of `protect` contains no level-0 occurrence of any
separator other than `'{'`. -/
theorem wrapped_hasSep0 (s : Str) (sep : Char) (hsep : sep ≠ '{') :
    hasSep0 sep ('{' :: (lpad s ++ s ++ (rpad s ++ ['}']))) 0 = false := by
  simp only [hasSep0]
  rw [if_neg (by intro ⟨hceq, _⟩; exact hsep hceq.symm)]
  simp only [if_true, show ('{' = '{') = True by simp, show ('{' = '}') = False by simp,
    if_false]
  rw [show lpad s ++ s ++ (rpad s ++ ['}']) = (lpad s ++ s ++ rpad s) ++ ['}'] by
    simp [List.append_assoc]]
  rw [zero_add]
  rw [hasSep0_append sep _ _ _ (hasSep0_of_pos sep _ 1 (by rw [interior_minPts]; omega))]
  rw [interior_level, add_zero]
  simp only [hasSep0]
  rw [if_neg (by intro ⟨_, h1⟩; omega)]
  simp

/-- Counterexample to C4 as stated: for the empty string (which trivially
contains no separator at level 0), `safesplit (protect "" sep) sep` yields
zero items, not one. -/
theorem safesplit_protect_empty_cex :
    safesplit (protect ([] : Str) (charTest ',')) ',' ≠ [protect ([] : Str) (charTest ',')] := by
  decide

/-- C4 (amended): for every NON-EMPTY string `s` and every separator
character `sep` OTHER THAN `'{'`, if `s` contains no occurrence of `sep` at
nesting level 0, then splitting `protect s sep` on `sep` with the
nesting-aware splitter yields exactly one item, equal to `protect s sep`. -/
theorem protect_safesplit_single (s : Str) (sep : Char)
    (hne : s ≠ []) (hsep : sep ≠ '{') (hocc : hasSep0 sep s 0 = false) :
    safesplit (protect s (charTest sep)) sep = [protect s (charTest sep)] := by
  rw [protect_eq]
  split
  · unfold safesplit
    rw [if_neg (by simp)]
    rw [safesplitGo_nosplit sep _ 0 [] (wrapped_hasSep0 s sep hsep)]
    rfl
  · unfold safesplit
    rw [if_neg hne]
    rw [safesplitGo_nosplit sep s 0 [] hocc]
    rfl

/-- Witness for the amended C4 at `s = "ab"`, `sep = ','`. -/
theorem protect_safesplit_single_witness :
    (("ab".toList : Str) ≠ [] ∧ (',' : Char) ≠ '{' ∧ hasSep0 ',' ("ab".toList) 0 = false)
    ∧ safesplit (protect ("ab".toList) (charTest ',')) ',' = [protect ("ab".toList) (charTest ',')] :=
  ⟨⟨by decide, by decide, by decide⟩,
    protect_safesplit_single ("ab".toList) ',' (by decide) (by decide) (by decide)⟩

/-! ## C7 and C10: `splitarg` -/

theorem findBrace_none_iff (s : Str) : findBrace s = none ↔ '{' ∉ s := by
  induction s with
  | nil => simp [findBrace]
  | cons c rest ih =>
    simp only [findBrace, List.mem_cons]
    by_cases hc : c = '{'
    · rw [if_pos hc]
      simp [hc]
    · rw [if_neg hc]
      simp only [Option.map_eq_none', ih]
      constructor
      · intro h hmem
        rcases hmem with hmem | hmem
        · exact hc hmem.symm
        · exact h hmem
      · intro h hmem
        exact h (Or.inr hmem)

theorem findBrace_zero_iff (s : Str) (i : Nat) (h : findBrace s = some i) :
    (i = 0 ↔ s.head? = some '{') := by
  cases s with
  | nil => exact absurd h (by simp [findBrace])
  | cons c rest =>
    simp only [findBrace] at h
    by_cases hc : c = '{'
    · rw [if_pos hc] at h
      simp only [Option.some.injEq] at h
      simp [← h, hc]
    · rw [if_neg hc] at h
      rcases hj : findBrace rest with _ | j
      · rw [hj] at h
        exact absurd h (by simp)
      · rw [hj] at h
        simp only [Option.map_some', Option.some.injEq] at h
        constructor
        · intro h0
          omega
        · intro hh
          simp only [List.head?_cons, Option.some.injEq] at hh
          exact absurd hh hc

theorem findBrace_mem (s : Str) (i : Nat) (h : findBrace s = some i) : '{' ∈ s := by
  by_contra hmem
  rw [← findBrace_none_iff] at hmem
  rw [hmem] at h
  exact absurd h (by simp)

/-- C7: `splitarg s` fails with `NotAnEnum` exactly when `s` is unbalanced,
or `s` contains a `'{'` but does not end with `'}'`, or the first `'{'`
occurs at position 0; on success it returns `(s, "")` when `s` contains no
`'{'`, and otherwise the prefix before the first `'{'` paired with
`unprotect` of the remainder from that `'{'`. -/
theorem splitarg_spec (s : Str) :
    splitarg s =
      if is_balanced s = false ∨ ('{' ∈ s ∧ s.getLast? ≠ some '}') ∨ s.head? = some '{' then
        .error .notAnEnum
      else
        match findBrace s with
        | none => .ok (s, [])
        | some i => .ok (s.take i, unprotect (s.drop i)) := by
  unfold splitarg
  by_cases hb : is_balanced s = true
  · rw [if_pos hb]
    have hmemOfHead : s.head? = some '{' → '{' ∈ s := by
      intro hh
      cases s with
      | nil => exact absurd hh (by simp)
      | cons c rest =>
        simp only [List.head?_cons, Option.some.injEq] at hh
        simp [hh]
    rcases hf : findBrace s with _ | i
    · rw [if_neg (by
        intro hcon
        rcases hcon with h1 | h2 | h3
        · simp [hb] at h1
        · exact (findBrace_none_iff s).mp hf h2.1
        · exact (findBrace_none_iff s).mp hf (hmemOfHead h3))]
    · by_cases hc : 0 < i ∧ s.getLast? = some '}'
      · rw [if_neg (by
          intro hcon
          rcases hcon with h1 | h2 | h3
          · simp [hb] at h1
          · exact h2.2 hc.2
          · have := (findBrace_zero_iff s i hf).mpr h3
            omega)]
        show (if 0 < i ∧ s.getLast? = some '}' then
              (Except.ok (s.take i, unprotect (s.drop i)) : Except SplitArgError (Str × Str))
            else Except.error SplitArgError.notAnEnum)
            = Except.ok (s.take i, unprotect (s.drop i))
        rw [if_pos hc]
      · rw [if_pos (by
          right
          by_cases hz : i = 0
          · right
            exact (findBrace_zero_iff s i hf).mp hz
          · left
            refine ⟨findBrace_mem s i hf, ?_⟩
            intro hlast
            exact hc ⟨by omega, hlast⟩)]
        show (if 0 < i ∧ s.getLast? = some '}' then
              (Except.ok (s.take i, unprotect (s.drop i)) : Except SplitArgError (Str × Str))
            else Except.error SplitArgError.notAnEnum)
            = Except.error SplitArgError.notAnEnum
        rw [if_neg hc]
  · have hb2 : is_balanced s = false := by
      cases hx : is_balanced s
      · rfl
      · exact absurd hx hb
    rw [if_neg hb, if_pos (Or.inl hb2)]

/-- C10: `splitarg` of the empty string succeeds with an empty tag and an
empty payload: the empty-tag failure applies only when a `'{'` is present. -/
theorem splitarg_empty : splitarg ([] : Str) = .ok ([], []) := rfl

/-! ## C9: the `IndentTooSmall` condition of `deprettify` -/

/-- C9: whenever the next line to be processed is non-empty, is not consumed
as an escaped-block continuation, and its indent exceeds the indent on top of
the stack by exactly one space, `deprettify`'s line loop fails with
`IndentTooSmall` carrying the 1-based number of that line. -/
theorem deprettify_indent_too_small
    (line : Str) (rest : List Str) (iline t : Nat) (ts : List Nat) (acc : Str)
    (esc : Option Nat)
    (hline : line ≠ [])
    (hind : indentOf line = t + 1)
    (hesc : esc = none ∨ ∃ k, esc = some k ∧ contLine k line = false) :
    deprettifyGo (line :: rest) iline (t :: ts) acc esc
      = .error (.indentTooSmall (iline + 1)) := by
  have hstep : stackStep (indentOf line) (t :: ts) iline
      = .error (.indentTooSmall (iline + 1)) := by
    simp only [stackStep, hind]
    rw [if_pos (show t < t + 1 by omega), if_pos (show t + 1 - t = 1 by omega)]
  have hfresh : freshLine line iline (t :: ts) acc = .error (.indentTooSmall (iline + 1)) := by
    simp only [freshLine]
    rw [if_neg hline]
    simp only [hstep]
  rcases hesc with hesc | ⟨k, hesc, hcont⟩
  · subst hesc
    simp only [deprettifyGo, hfresh]
  · subst hesc
    simp [deprettifyGo, hcont, hfresh]

/-- Witness for C9: `deprettify "a=\n b\n" = Err (IndentTooSmall 2)`. -/
theorem deprettify_indent_too_small_witness :
    deprettify ("a=\n b\n".toList) = .error (.indentTooSmall 2) := by
  show deprettifyGo ([' ', 'b'] :: [[]]) 1 [0] ['a', '='] none
      = .error (.indentTooSmall 2)
  exact deprettify_indent_too_small [' ', 'b'] [[]] 1 0 [] ['a', '='] none
    (by decide) (by decide) (Or.inl rfl)

/-! ## C2 and C8: the missing newline after an empty scope -/

/-- The flat encoding `"Tuple{},b"` is produced by the serialization layer:
it is the output of serializing the tuple `(E::Tuple(), "b")`, where
`E::Tuple()` is an enum tuple variant with zero fields. -/
theorem serializer_produces_empty_scope :
    serializeSeqElems [serializeEmptyTupleVariant ("Tuple".toList), "b".toList]
      = "Tuple\x7b\x7d,b".toList := rfl

/-- C2: on the serializer-producible flat encoding `"Tuple{},b"` (an empty
tuple variant followed by a second sequence element), `deprettify ∘ prettify`
is not the identity: the empty scope is rendered as `">|"` with no trailing
newline, the next item lands on the same line, and deprettify reads the
result back as `"Tuple{b}"`. -/
theorem prettify_deprettify_empty_scope :
    deprettify (prettify ("Tuple\x7b\x7d,b".toList)) = .ok ("Tuple\x7bb\x7d".toList)
    ∧ ("Tuple\x7bb\x7d".toList : Str) ≠ "Tuple\x7b\x7d,b".toList :=
  ⟨rfl, by decide⟩

/-- C8: `prettify` of the empty string is the empty string, but the
prettified output does not always end with a newline: the empty scope of
`"a{}"` is rendered as a final `"  >|"` with no trailing newline. -/
theorem prettify_empty_scope_no_newline :
    prettify ([] : Str) = []
    ∧ prettify ("a\x7b\x7d".toList) = "a\n  >|".toList
    ∧ ("a\n  >|".toList : Str).getLast? ≠ some '\n' :=
  ⟨rfl, rfl, by decide⟩

/-! ## C5: the byte cursor of `SafesplitIter::next` -/

/-- C5: `safesplit` is not total for separators whose UTF-8 encoding is
longer than one byte.  After splitting `"aéb"` at `'é'` the iterator advances
its byte cursor by one, landing inside the separator's two-byte encoding, and
the next `next()` call slices the string at a non-boundary index (a panic,
modelled as `none`).  For one-byte separators the byte-level model agrees
with the character-level splitter. -/
theorem safesplit_multibyte_sep :
    safesplitBytes ("aéb".toList) 'é' = none
    ∧ safesplit ("aéb".toList) 'é' = ["a".toList, "b".toList]
    ∧ safesplitBytes ("a,b".toList) ',' = some ["a".toList, "b".toList] :=
  ⟨rfl, rfl, rfl⟩

/-! ## Adequacy of the `prettify` recursion bound

The bound driving `prettifyScopeB` is irrelevant as long as it dominates the
length of the processed string (every nested scope is at least two characters
shorter than the item it came from), so the zero case of the bound is never
reached from `prettify`. -/

theorem safesplitGo_part_length (sep : Char) (s : Str) :
    ∀ (lv : Int) (acc part : Str), part ∈ safesplitGo sep s lv acc →
      part.length ≤ acc.length + s.length := by
  induction s with
  | nil =>
    intro lv acc part hp
    simp only [safesplitGo, List.mem_singleton] at hp
    subst hp
    simp
  | cons c rest ih =>
    intro lv acc part hp
    simp only [safesplitGo] at hp
    by_cases h0 : c = sep ∧ lv = 0
    · rw [if_pos h0] at hp
      rcases List.mem_cons.mp hp with hp | hp
      · subst hp
        simp only [List.length_reverse, List.length_cons]
        omega
      · have := ih 0 [] part hp
        simp only [List.length_nil, List.length_cons] at this ⊢
        omega
    · rw [if_neg h0] at hp
      have step : ∀ lv2, part ∈ safesplitGo sep rest lv2 (c :: acc) →
          part.length ≤ acc.length + (c :: rest).length := by
        intro lv2 hp2
        have := ih lv2 (c :: acc) part hp2
        simp only [List.length_cons] at this ⊢
        omega
      by_cases hc : c = '{'
      · rw [if_pos hc] at hp
        exact step _ hp
      · by_cases hc2 : c = '}'
        · rw [if_neg hc, if_pos hc2] at hp
          exact step _ hp
        · rw [if_neg hc, if_neg hc2] at hp
          exact step _ hp

theorem safesplit_part_length (s : Str) (sep : Char) (part : Str)
    (hp : part ∈ safesplit s sep) : part.length ≤ s.length := by
  unfold safesplit at hp
  by_cases hs : s = []
  · rw [if_pos hs] at hp
    exact absurd hp (by simp)
  · rw [if_neg hs] at hp
    have := safesplitGo_part_length sep s 0 [] part hp
    simpa using this

theorem findBrace_lt_length (s : Str) : ∀ i : Nat, findBrace s = some i → i < s.length := by
  induction s with
  | nil => intro i h; exact absurd h (by simp [findBrace])
  | cons c rest ih =>
    intro i h
    simp only [findBrace] at h
    by_cases hc : c = '{'
    · rw [if_pos hc] at h
      simp only [Option.some.injEq] at h
      simp [← h]
    · rw [if_neg hc] at h
      rcases hj : findBrace rest with _ | j
      · rw [hj] at h
        exact absurd h (by simp)
      · rw [hj] at h
        simp only [Option.map_some', Option.some.injEq] at h
        have := ih j hj
        simp only [List.length_cons]
        omega

theorem findScope_scope_length (part text scope : Str)
    (h : findScope part = some (text, scope)) : scope.length + 2 ≤ part.length := by
  rcases hf : findBrace part with _ | i
  · simp only [findScope, hf] at h
    exact absurd h (by simp)
  · simp only [findScope, hf] at h
    by_cases hc : 0 < i ∧ part.getLast? = some '}'
        ∧ is_balanced ((part.drop (i + 1)).dropLast) = true
    · rw [if_pos hc] at h
      simp only [Option.some.injEq, Prod.mk.injEq] at h
      have hlt := findBrace_lt_length part i hf
      have hsl : scope.length = part.length - (i + 1) - 1 := by
        rw [← h.2, List.length_dropLast, List.length_drop]
      have h0 := hc.1
      omega
    · rw [if_neg hc] at h
      exact absurd h (by simp)

theorem prettifyScopeB_bound_irrel : ∀ (b1 b2 : Nat) (s ind : Str),
    s.length ≤ b1 → 0 < b1 → s.length ≤ b2 → 0 < b2 →
      prettifyScopeB b1 s ind = prettifyScopeB b2 s ind := by
  intro b1
  induction b1 with
  | zero => intro b2 s ind _ h1 _ _; omega
  | succ b ih =>
    intro b2 s ind h1 _ h2 h2p
    rcases b2 with _ | b2'
    · omega
    · simp only [prettifyScopeB]
      by_cases hs : s = []
      · rw [if_pos hs, if_pos hs]
      · rw [if_neg hs, if_neg hs]
        congr 1
        apply List.map_congr_left
        intro part hp
        rcases hsc : findScope part with _ | ⟨text, scope⟩
        · rfl
        · have hpl : part.length ≤ s.length := safesplit_part_length s ',' part hp
          have hsl := findScope_scope_length part text scope hsc
          show renderLine text ind ++ prettifyScopeB b scope (ind ++ [' ', ' '])
              = renderLine text ind ++ prettifyScopeB b2' scope (ind ++ [' ', ' '])
          rw [ih b2' scope (ind ++ [' ', ' '])
            (by omega) (by omega) (by omega) (by omega)]

end Stringly
